import Mathlib

/-!
# Verification of the ChunkedVec chunk-based storage engine

Shallow embedding of the `chunked_vec` Rust crate (files `operations.rs`,
`constructors/new.rs`, `index.rs`, `drop.rs`, `internal.rs`,
`iterators/into_iter.rs`).

Modelling conventions:
* A chunk `Box<[MaybeUninit<T>; N]>` is a `List (Option α)` of length `N`;
  `none` models an uninitialized slot, `some x` a slot whose bytes hold `x`.
* The container `ChunkedVec { data: Vec<Chunk>, len }` is a structure with a
  `List (List (Option α))` of chunks and a natural-number `len`.
* `ptr::read` / `ptr::copy` / `MaybeUninit::write` are modelled as reads and
  writes of the `Option` cells; `ptr::copy` duplicates cell contents exactly
  as a byte copy does.
* Operations that can panic return `Except`: `Except.error st` models a panic
  that unwinds leaving the container in state `st`, `Except.ok` a normal
  return.  Unchecked (`get_unchecked`) accesses, which the source only ever
  performs in bounds, are totalized with `List.getD` defaults.
* `Vec::with_capacity(k)` allocates no chunks; the reserved capacity (in
  chunks) is modelled by the separate function `reservedChunks`.
-/

set_option autoImplicit false

deriving instance DecidableEq for Except

namespace ChunkedVecSpec

variable {α : Type} {N : Nat}

/-- Ceiling division `(a + b - 1) / b`, as written in the Rust source
(`div_ceil` in `with_capacity`, `(new_len + N - 1) / N` in `resize`/`remove`). -/
def ceilDiv (a b : Nat) : Nat := (a + b - 1) / b

/-- Read the cell at chunk `ci`, offset `off` (out-of-range reads, which the
source never performs on live paths, default to `none`). -/
def readCell (data : List (List (Option α))) (ci off : Nat) : Option α :=
  (data.getD ci []).getD off none

/-- Write the cell at chunk `ci`, offset `off` (out-of-range writes are
no-ops, mirroring that the source never performs them on live paths). -/
def writeCell (data : List (List (Option α))) (ci off : Nat) (c : Option α) :
    List (List (Option α)) :=
  data.set ci ((data.getD ci []).set off c)

/-- `ChunkedVec<T, N> { data: Vec<Box<[MaybeUninit<T>; N]>>, len: usize }`. -/
structure ChunkedVec (α : Type) (N : Nat) where
  data : List (List (Option α))
  len : Nat
  deriving DecidableEq, Repr

namespace ChunkedVec

/-- `ChunkedVecSized::new`: empty chunk list, `len = 0`. -/
def new : ChunkedVec α N := ⟨[], 0⟩

/-- `ChunkedVecSized::with_capacity(capacity)`: the chunk list itself is the
empty `Vec` produced by `Vec::with_capacity(capacity.div_ceil(N))` — no chunk
is allocated, `len = 0`. -/
def with_capacity (_capacity : Nat) : ChunkedVec α N := ⟨[], 0⟩

/-- The number of chunk slots reserved (not allocated) in the backing `Vec`
by `with_capacity(capacity)`, namely `capacity.div_ceil(N)`. -/
def with_capacity_reservedChunks (capacity : Nat) (N : Nat) : Nat :=
  ceilDiv capacity N

/-- `ChunkedVecSized::with_chunk_count(chunk_count)`: again only backing-
`Vec` capacity is reserved; no chunk is allocated and `len = 0`. -/
def with_chunk_count (_chunk_count : Nat) : ChunkedVec α N := ⟨[], 0⟩

/-- `ChunkedVec::create_new_chunk(value)` (internal.rs): a fresh chunk of
uninitialized slots whose slot 0 is initialized with `value`. -/
def create_new_chunk (N : Nat) (value : α) : List (Option α) :=
  (List.replicate N (none : Option α)).set 0 (some value)

/-- `ChunkedVec::push(value)` (operations.rs lines 26–38).  The
`assert_eq!(offset, 0)` panic is modelled by `Except.error` carrying the
untouched container. -/
def push (cv : ChunkedVec α N) (value : α) :
    Except (ChunkedVec α N) (ChunkedVec α N) :=
  let chunk_idx := cv.len / N
  let offset := cv.len % N
  if chunk_idx ≥ cv.data.length then
    if offset = 0 then
      .ok ⟨cv.data ++ [create_new_chunk N value], cv.len + 1⟩
    else
      .error cv
  else
    .ok ⟨writeCell cv.data chunk_idx offset (some value), cv.len + 1⟩

/-- Push a whole list of values, left to right, propagating any panic. -/
def pushAll (cv : ChunkedVec α N) : List α →
    Except (ChunkedVec α N) (ChunkedVec α N)
  | [] => .ok cv
  | x :: rest =>
    match push cv x with
    | .ok cv' => pushAll cv' rest
    | .error e => .error e

/-- An all-uninitialized chunk, as built by `resize`'s `resize_with` closure. -/
def uninitChunk (α : Type) (N : Nat) : List (Option α) :=
  List.replicate N (none : Option α)

/-- `ChunkedVec::resize(new_len, value)` (operations.rs lines 65–101).
Cloning is duplication of the value.  The grow branch extends the chunk list
to `(new_len + N - 1) / N` chunks when needed and writes a copy of `value` at
`(i / N, i % N)` for every `i` in `[old_len, new_len)`; the shrink branch
drops the elements in `[new_len, old_len)` in place (see `resizeDrops`) and
truncates the chunk list. -/
def resize (cv : ChunkedVec α N) (new_len : Nat) (value : α) : ChunkedVec α N :=
  let old_len := cv.len
  if new_len > old_len then
    let required_chunks := (new_len + N - 1) / N
    let data1 :=
      if required_chunks > cv.data.length then
        cv.data ++ List.replicate (required_chunks - cv.data.length) (uninitChunk α N)
      else cv.data
    let data2 := (List.range (new_len - old_len)).foldl
      (fun d k => writeCell d ((old_len + k) / N) ((old_len + k) % N) (some value)) data1
    ⟨data2, new_len⟩
  else if new_len < old_len then
    let required_chunks := if new_len = 0 then 0 else (new_len + N - 1) / N
    ⟨cv.data.take required_chunks, new_len⟩
  else cv

/-- The sequence of element values destructed by the shrink branch of
`resize` (the `ptr::drop_in_place` loop over `new_len..old_len`); empty when
`new_len ≥ len`. -/
def resizeDrops (cv : ChunkedVec α N) (new_len : Nat) : List (Option α) :=
  if new_len < cv.len then
    (List.range (cv.len - new_len)).map
      (fun k => readCell cv.data ((new_len + k) / N) ((new_len + k) % N))
  else []

/-- The in-chunk left shift of `remove` (operations.rs lines 114–122):
`ptr::copy` moves cells `off+1 .. N-1` down to `off .. N-2`; the cell at
`N-1` keeps its (now duplicated) contents. -/
def shiftChunk (N : Nat) (c : List (Option α)) (off : Nat) : List (Option α) :=
  (List.range N).map (fun j =>
    if j < off then c.getD j none
    else if j + 1 < N then c.getD (j + 1) none
    else c.getD j none)

/-- One iteration of `remove`'s cross-chunk loop (operations.rs lines
125–136): read slot 0 of chunk `i+1`, write it into slot `N-1` of chunk `i`,
then shift chunk `i+1` down by one (its last cell keeping duplicated
contents). -/
def crossStep (N : Nat) (d : List (List (Option α))) (i : Nat) :
    List (List (Option α)) :=
  let cur := d.getD i []
  let next := d.getD (i + 1) []
  let d1 := d.set i ((List.range N).map (fun j =>
    if j + 1 < N then cur.getD j none else next.getD 0 none))
  d1.set (i + 1) ((List.range N).map (fun j =>
    if j + 1 < N then next.getD (j + 1) none else next.getD j none))

/-- The cross-chunk loop `for i in current_chunk_idx..until_chunk_idx`. -/
def crossLoop (N : Nat) (d : List (List (Option α))) (start count : Nat) :
    List (List (Option α)) :=
  (List.range count).foldl (fun d' k => crossStep N d' (start + k)) d

/-- The chunk data of `remove` after the in-chunk shift (operations.rs lines
114–122) and the cross-chunk compaction loop
`for i in current_chunk_idx..until_chunk_idx` (lines 124–136). -/
def removeShifted (cv : ChunkedVec α N) (index : Nat) : List (List (Option α)) :=
  crossLoop N
    (cv.data.set (index / N) (shiftChunk N (cv.data.getD (index / N) []) (index % N)))
    (index / N) ((cv.len - 1) / N - index / N)

/-- `ChunkedVec::remove(index)` (operations.rs lines 103–148).
`Except.error st` models a panic unwinding with the container in state `st`:
the explicit bounds check at entry, the checked chunk-list indexing
`self.data[current_chunk_idx]` (line 112) and — crucially — the checked
chunk-list indexing `self.data[last_chunk_idx]` of the uninitialized-marking
step (line 140), which uses `last_chunk_idx = len / N` and so reads past the
chunk list whenever `len` is a nonzero multiple of `N`.  On success the slot
at `(len / N, len % N)` is overwritten with `MaybeUninit::uninit()`, `len` is
decremented and the chunk list truncated to
`if new_len == 0 { 0 } else { (new_len + N - 1) / N }` chunks. -/
def remove (cv : ChunkedVec α N) (index : Nat) :
    Except (ChunkedVec α N) (Option α × ChunkedVec α N) :=
  if index ≥ cv.len then .error cv
  else if index / N ≥ cv.data.length then .error cv
  else
    let d2 := removeShifted cv index
    if cv.len / N ≥ d2.length then .error ⟨d2, cv.len⟩
    else
      .ok (readCell cv.data (index / N) (index % N),
        ⟨(writeCell d2 (cv.len / N) (cv.len % N) none).take
          (if cv.len - 1 = 0 then 0 else (cv.len - 1 + N - 1) / N), cv.len - 1⟩)

/-- `ChunkedVec::get(index)` (index.rs lines 20–26): `None` when
`index >= len`, otherwise the value read through `get_unchecked` at
`(index / N, index % N)`. -/
def get (cv : ChunkedVec α N) (index : Nat) : Option α :=
  if index ≥ cv.len then none
  else readCell cv.data (index / N) (index % N)

/-- `ChunkedVec::get_mut(index)` (index.rs lines 29–35): same bounds
discipline and location arithmetic as `get`, returning the mutable slot. -/
def get_mut (cv : ChunkedVec α N) (index : Nat) : Option α :=
  if index ≥ cv.len then none
  else readCell cv.data (index / N) (index % N)

/-- `Index::index` (index.rs lines 42–51): panics (`Except.error`) when
`index >= len`, otherwise yields the element at `(index / N, index % N)`. -/
def index_read (cv : ChunkedVec α N) (index : Nat) : Except Unit (Option α) :=
  if index ≥ cv.len then .error ()
  else .ok (readCell cv.data (index / N) (index % N))

/-- `IndexMut::index_mut` (index.rs lines 56–65): identical bounds check and
location arithmetic as `Index::index`. -/
def index_write (cv : ChunkedVec α N) (index : Nat) : Except Unit (Option α) :=
  if index ≥ cv.len then .error ()
  else .ok (readCell cv.data (index / N) (index % N))

/-- `ChunkedVec::len`. -/
def length (cv : ChunkedVec α N) : Nat := cv.len

/-- `ChunkedVec::is_empty`. -/
def is_empty (cv : ChunkedVec α N) : Bool := cv.len == 0

/-- `ChunkedVec::allocated_capacity` (operations.rs lines 212–214):
`self.data.len() * N`. -/
def allocated_capacity (cv : ChunkedVec α N) : Nat := cv.data.length * N

end ChunkedVec

/-- The chunk walk of `impl Drop for ChunkedVec` (drop.rs lines 10–25): per
chunk destruct `min(remaining, N)` slots starting at offset 0, stop when
nothing remains.  Emits the destructed slots as `(chunk index, offset)`
pairs. -/
def dropGo (N : Nat) : List (List (Option α)) → Nat → Nat → List (Nat × Nat)
  | [], _, _ => []
  | _ :: rest, remaining, k =>
    let toDrop := min remaining N
    if toDrop = 0 then []
    else (List.range toDrop).map (fun j => (k, j)) ++ dropGo N rest (remaining - toDrop) (k + 1)

/-- `impl Drop for ChunkedVec` (drop.rs lines 4–27): destructs nothing when
the element type needs no drop, otherwise performs the chunk walk. -/
def drop_destructs (cv : ChunkedVec α N) (needsDrop : Bool) : List (Nat × Nat) :=
  if needsDrop then dropGo N cv.data cv.len 0 else []

/-- `IntoIter<T, N> { vec: ChunkedVec<T, N>, index: usize }`
(iterators/into_iter.rs). -/
structure IntoIter (α : Type) (N : Nat) where
  vec : ChunkedVec α N
  index : Nat
  deriving DecidableEq, Repr

namespace IntoIter

/-- `IntoIterator::into_iter` for ChunkedVec: wraps the container with
`index = 0`. -/
def into_iter (cv : ChunkedVec α N) : IntoIter α N := ⟨cv, 0⟩

/-- `Iterator::next` (iterators/into_iter.rs lines 46–68): when
`index < len`, read the value out of slot `(index / N, index % N)`, mark the
slot uninitialized and advance; otherwise yield nothing and leave the state
unchanged. -/
def next (it : IntoIter α N) : Option α × IntoIter α N :=
  if it.index < it.vec.len then
    let ci := it.index / N
    let off := it.index % N
    (readCell it.vec.data ci off,
      ⟨⟨writeCell it.vec.data ci off none, it.vec.len⟩, it.index + 1⟩)
  else (none, it)

/-- Call `next` `k` times, collecting the yields in order. -/
def nextN (it : IntoIter α N) : Nat → List (Option α) × IntoIter α N
  | 0 => ([], it)
  | k + 1 =>
    let p := next it
    let q := nextN p.2 k
    (p.1 :: q.1, q.2)

/-- The destruct sequence of the `while self.index < self.vec.len` loop of
`impl Drop for IntoIter` (iterators/into_iter.rs lines 83–92): each
not-yet-yielded slot `(index / N, index % N)` is destructed once, in order. -/
def iterDropGo (N len : Nat) (index : Nat) : List (Nat × Nat) :=
  if index < len then (index / N, index % N) :: iterDropGo N len (index + 1)
  else []
termination_by len - index
decreasing_by omega

/-- Slots destructed when an `IntoIter` is dropped. -/
def iter_drop_destructs (it : IntoIter α N) : List (Nat × Nat) :=
  iterDropGo N it.vec.len it.index

/-- The underlying container after `IntoIter`'s drop ran: data bytes
untouched, `len` reset to 0 (iterators/into_iter.rs line 95). -/
def iter_finalize (it : IntoIter α N) : ChunkedVec α N :=
  ⟨it.vec.data, 0⟩

end IntoIter

/-- Structural well-formedness maintained by every successful operation: the
chunk list holds exactly `ceil(len / N)` chunks and every chunk has `N`
slots. -/
def WF (cv : ChunkedVec α N) : Prop :=
  cv.data.length = ceilDiv cv.len N ∧ ∀ c ∈ cv.data, c.length = N

/-- `cv` represents the logical sequence `xs`: the lengths agree and the cell
at `(i / N, i % N)` holds `xs[i]` for every live index `i`. -/
def Models (cv : ChunkedVec α N) (xs : List α) : Prop :=
  cv.len = xs.length ∧
  ∀ i, i < cv.len → readCell cv.data (i / N) (i % N) = xs[i]?

instance (cv : ChunkedVec α N) [DecidableEq α] : Decidable (WF cv) := by
  unfold WF; infer_instance

instance (cv : ChunkedVec α N) (xs : List α) [DecidableEq α] :
    Decidable (Models cv xs) := by
  unfold Models; infer_instance

/-- States reachable from the public constructors by successful `push`,
`resize` and `remove` operations. -/
inductive Reachable : ChunkedVec α N → Prop
  | new : Reachable ChunkedVec.new
  | with_capacity (c : Nat) : Reachable (ChunkedVec.with_capacity c)
  | with_chunk_count (k : Nat) : Reachable (ChunkedVec.with_chunk_count k)
  | push (cv cv' : ChunkedVec α N) (v : α) : Reachable cv →
      cv.push v = .ok cv' → Reachable cv'
  | resize (cv : ChunkedVec α N) (n : Nat) (v : α) : Reachable cv →
      Reachable (cv.resize n v)
  | remove (cv st : ChunkedVec α N) (i : Nat) (r : Option α) : Reachable cv →
      cv.remove i = .ok (r, st) → Reachable st

/-! ## List helper lemmas -/

theorem getD_set_self {β : Type} (l : List β) (i : Nat) (a d : β)
    (h : i < l.length) : (l.set i a).getD i d = a := by
  induction l generalizing i with
  | nil => simp at h
  | cons x xs ih =>
    cases i with
    | zero => simp [List.set, List.getD]
    | succ j =>
      simp only [List.set, List.getD_cons_succ]
      exact ih j (by simpa using h)

theorem getD_set_ne {β : Type} (l : List β) (i j : Nat) (a : β) (d : β)
    (h : i ≠ j) : (l.set i a).getD j d = l.getD j d := by
  induction l generalizing i j with
  | nil => simp [List.set]
  | cons x xs ih =>
    cases i with
    | zero =>
      cases j with
      | zero => exact absurd rfl h
      | succ j' => simp [List.set, List.getD]
    | succ i' =>
      cases j with
      | zero => simp [List.set, List.getD]
      | succ j' =>
        simp only [List.set, List.getD_cons_succ]
        exact ih i' j' (fun hc => h (by rw [hc]))

theorem getD_append_left {β : Type} (l l' : List β) (i : Nat) (d : β)
    (h : i < l.length) : (l ++ l').getD i d = l.getD i d := by
  induction l generalizing i with
  | nil => simp at h
  | cons x xs ih =>
    cases i with
    | zero => simp [List.getD]
    | succ j =>
      simp only [List.cons_append, List.getD_cons_succ]
      exact ih j (by simpa using h)

theorem getD_append_right {β : Type} (l l' : List β) (i : Nat) (d : β)
    (h : l.length ≤ i) : (l ++ l').getD i d = l'.getD (i - l.length) d := by
  induction l generalizing i with
  | nil => simp
  | cons x xs ih =>
    cases i with
    | zero => simp at h
    | succ j =>
      simp only [List.cons_append, List.getD_cons_succ, List.length_cons]
      rw [ih j (by simpa using h)]
      simp [Nat.succ_sub_succ]

theorem getD_take {β : Type} (l : List β) (n i : Nat) (d : β)
    (h : i < n) : (l.take n).getD i d = l.getD i d := by
  induction l generalizing n i with
  | nil => simp
  | cons x xs ih =>
    cases n with
    | zero => simp at h
    | succ m =>
      cases i with
      | zero => simp [List.getD]
      | succ j =>
        simp only [List.take, List.getD_cons_succ]
        exact ih m j (by omega)

theorem getD_mem_of_lt {β : Type} (l : List β) (i : Nat) (d : β)
    (h : i < l.length) : l.getD i d ∈ l := by
  induction l generalizing i with
  | nil => simp at h
  | cons x xs ih =>
    cases i with
    | zero => simp [List.getD]
    | succ j =>
      simp only [List.getD_cons_succ]
      exact List.mem_cons_of_mem x (ih j (by simpa using h))

theorem set_of_length_le {β : Type} (l : List β) (i : Nat) (a : β)
    (h : l.length ≤ i) : l.set i a = l := by
  induction l generalizing i with
  | nil => simp
  | cons x xs ih =>
    cases i with
    | zero => simp at h
    | succ j => simp only [List.set]; rw [ih j (by simpa using h)]

/-! ## Arithmetic lemmas about `ceilDiv` and location mapping -/

theorem ceilDiv_succ (hN : 0 < N) (a : Nat) : ceilDiv (a + 1) N = a / N + 1 := by
  unfold ceilDiv
  have h1 : a + 1 + N - 1 = a + N := by omega
  rw [h1, Nat.add_div_right a hN]

theorem ceilDiv_zero (hN : 0 < N) : ceilDiv 0 N = 0 := by
  unfold ceilDiv
  exact Nat.div_eq_of_lt (by omega)

theorem ceilDiv_eq (hN : 0 < N) (a : Nat) :
    ceilDiv a N = a / N + (if a % N = 0 then 0 else 1) := by
  cases a with
  | zero => simp [ceilDiv_zero hN]
  | succ m =>
    rw [ceilDiv_succ hN, Nat.succ_div]
    have hd : N ∣ (m + 1) ↔ (m + 1) % N = 0 := Nat.dvd_iff_mod_eq_zero
    by_cases h : (m + 1) % N = 0
    · rw [if_pos (hd.2 h), if_pos h]
    · rw [if_neg (fun hc => h (hd.1 hc)), if_neg h]

theorem le_ceilDiv_mul (hN : 0 < N) (a : Nat) : a ≤ ceilDiv a N * N := by
  cases a with
  | zero => omega
  | succ m =>
    rw [ceilDiv_succ hN]
    have h1 := Nat.div_add_mod m N
    have h2 := Nat.mod_lt m hN
    have h3 : (m / N + 1) * N = N * (m / N) + N := by ring
    omega

theorem ceilDiv_le_ceilDiv (a b : Nat) (h : a ≤ b) :
    ceilDiv a N ≤ ceilDiv b N :=
  Nat.div_le_div_right (by omega)

theorem div_lt_of_lt_mul (hN : 0 < N) {p q : Nat} (h : p < q * N) :
    p / N < q :=
  (Nat.div_lt_iff_lt_mul hN).2 h

theorem loc_eq_of {i j : Nat} (hdiv : i / N = j / N)
    (hmod : i % N = j % N) : i = j := by
  have h1 := Nat.div_add_mod i N
  have h2 := Nat.div_add_mod j N
  rw [hdiv, hmod] at h1
  omega

/-! ## Cell read/write lemmas -/

theorem readCell_writeCell_self (data : List (List (Option α))) (ci off : Nat)
    (c : Option α) (hci : ci < data.length)
    (hoff : off < (data.getD ci []).length) :
    readCell (writeCell data ci off c) ci off = c := by
  unfold readCell writeCell
  rw [getD_set_self data ci _ [] hci, getD_set_self _ off c none hoff]

theorem readCell_writeCell_ne (data : List (List (Option α))) (ci off : Nat)
    (c : Option α) (ci' off' : Nat) (h : ci ≠ ci' ∨ off ≠ off') :
    readCell (writeCell data ci off c) ci' off' = readCell data ci' off' := by
  unfold readCell writeCell
  rcases h with h | h
  · rw [getD_set_ne data ci ci' _ [] h]
  · by_cases hc : ci = ci'
    · subst hc
      by_cases hlt : ci < data.length
      · rw [getD_set_self data ci _ [] hlt, getD_set_ne _ off off' c none h]
      · rw [set_of_length_le data ci _ (by omega)]
    · rw [getD_set_ne data ci ci' _ [] hc]

theorem length_writeCell (data : List (List (Option α))) (ci off : Nat)
    (c : Option α) : (writeCell data ci off c).length = data.length := by
  simp [writeCell]

theorem chunkLen_writeCell (data : List (List (Option α))) (ci off : Nat)
    (c : Option α) (h : ∀ ch ∈ data, ch.length = N) :
    ∀ ch ∈ writeCell data ci off c, ch.length = N := by
  by_cases hlt : ci < data.length
  · intro ch hch
    rcases List.mem_or_eq_of_mem_set hch with hmem | heq
    · exact h ch hmem
    · subst heq
      rw [List.length_set]
      exact h _ (getD_mem_of_lt data ci [] hlt)
  · rw [writeCell, set_of_length_le data ci _ (by omega)]
    exact h

/-- Locations of distinct indices differ. -/
theorem loc_ne (i j : Nat) (h : i ≠ j) :
    i / N ≠ j / N ∨ i % N ≠ j % N := by
  by_contra hc
  push_neg at hc
  exact h (loc_eq_of hc.1 hc.2)

/-! ## The push step -/

theorem push_step (hN : 0 < N) (cv : ChunkedVec α N) (zs : List α) (v : α)
    (hwf : WF cv) (hm : Models cv zs) :
    ∃ cv', cv.push v = .ok cv' ∧ WF cv' ∧ Models cv' (zs ++ [v]) := by
  obtain ⟨hlen, hch⟩ := hwf
  obtain ⟨hml, hmc⟩ := hm
  have hcd := ceilDiv_eq hN cv.len
  by_cases hb : cv.len / N ≥ cv.data.length
  · -- a fresh chunk is appended
    have hmod : cv.len % N = 0 := by
      by_contra hm0
      rw [if_neg hm0] at hcd
      omega
    rw [if_pos hmod] at hcd
    have hdiv : cv.data.length = cv.len / N := by omega
    have hfull : cv.len = cv.len / N * N := by
      have h1 := Nat.div_add_mod cv.len N
      have h2 : N * (cv.len / N) = cv.len / N * N := Nat.mul_comm _ _
      omega
    refine ⟨⟨cv.data ++ [ChunkedVec.create_new_chunk N v], cv.len + 1⟩, ?_, ⟨?_, ?_⟩, ?_, ?_⟩
    · simp only [ChunkedVec.push]
      rw [if_pos hb, if_pos hmod]
    · simp only [List.length_append, List.length_singleton]
      rw [ceilDiv_succ hN]
      omega
    · intro c hc
      rcases List.mem_append.1 hc with hc | hc
      · exact hch c hc
      · rw [List.mem_singleton.1 hc]
        simp [ChunkedVec.create_new_chunk]
    · simpa using hml
    · intro i hi
      simp only at hi
      by_cases hilt : i < cv.len
      · have hidiv : i / N < cv.data.length := by
          rw [hdiv]
          exact div_lt_of_lt_mul hN (by omega)
        unfold readCell
        rw [getD_append_left _ _ _ _ hidiv,
          List.getElem?_append, if_pos (show i < zs.length by omega)]
        exact hmc i hilt
      · have hieq : i = cv.len := by omega
        subst hieq
        unfold readCell
        rw [hmod, ← hdiv, getD_append_right _ _ _ _ (le_refl _), Nat.sub_self]
        have h0 : ([ChunkedVec.create_new_chunk N v] :
            List (List (Option α))).getD 0 [] = ChunkedVec.create_new_chunk N v := rfl
        rw [h0]
        unfold ChunkedVec.create_new_chunk
        rw [getD_set_self _ _ _ _ (by simpa using hN), hml]
        simp
  · -- the value is written into the existing last chunk
    push_neg at hb
    have hmod : cv.len % N ≠ 0 := by
      intro hm0
      rw [if_pos hm0] at hcd
      omega
    refine ⟨⟨writeCell cv.data (cv.len / N) (cv.len % N) (some v), cv.len + 1⟩,
      ?_, ⟨?_, ?_⟩, ?_, ?_⟩
    · simp only [ChunkedVec.push]
      rw [if_neg (by omega)]
    · rw [length_writeCell, ceilDiv_succ hN, hlen, hcd, if_neg hmod]
    · exact chunkLen_writeCell cv.data _ _ _ hch
    · simpa using hml
    · intro i hi
      simp only at hi
      dsimp only
      by_cases hilt : i < cv.len
      · rw [readCell_writeCell_ne _ _ _ _ _ _ (loc_ne cv.len i (by omega)),
          List.getElem?_append, if_pos (show i < zs.length by omega)]
        exact hmc i hilt
      · have hieq : i = cv.len := by omega
        subst hieq
        have hchunk : (cv.data.getD (cv.len / N) []).length = N :=
          hch _ (getD_mem_of_lt cv.data _ [] hb)
        rw [readCell_writeCell_self _ _ _ _ hb (by rw [hchunk]; exact Nat.mod_lt _ hN)]
        rw [hml]
        simp

/-- Pushing a whole list succeeds and appends it to the model. -/
theorem pushAll_ok (hN : 0 < N) :
    ∀ (xs : List α) (cv : ChunkedVec α N) (zs : List α), WF cv → Models cv zs →
    ∃ cv', cv.pushAll xs = .ok cv' ∧ WF cv' ∧ Models cv' (zs ++ xs) := by
  intro xs
  induction xs with
  | nil =>
    intro cv zs hwf hm
    exact ⟨cv, rfl, hwf, by simpa using hm⟩
  | cons x rest ih =>
    intro cv zs hwf hm
    obtain ⟨cv1, hpush, hwf1, hm1⟩ := push_step hN cv zs x hwf hm
    obtain ⟨cv', hall, hwf', hm'⟩ := ih cv1 (zs ++ [x]) hwf1 hm1
    refine ⟨cv', ?_, hwf', by simpa using hm'⟩
    simp only [ChunkedVec.pushAll, hpush]
    exact hall

/-! ## The resize fill loop -/

theorem foldWrites_length (s : Nat) (v : α) (cnt : Nat)
    (d : List (List (Option α))) :
    ((List.range cnt).foldl
      (fun d' k => writeCell d' ((s + k) / N) ((s + k) % N) (some v)) d).length
      = d.length := by
  induction cnt with
  | zero => rfl
  | succ m ih =>
    rw [List.range_succ, List.foldl_append]
    simp only [List.foldl_cons, List.foldl_nil]
    rw [length_writeCell, ih]

theorem foldWrites_chunkLen (s : Nat) (v : α) (cnt : Nat)
    (d : List (List (Option α))) (h : ∀ ch ∈ d, ch.length = N) :
    ∀ ch ∈ (List.range cnt).foldl
      (fun d' k => writeCell d' ((s + k) / N) ((s + k) % N) (some v)) d,
      ch.length = N := by
  induction cnt with
  | zero => exact h
  | succ m ih =>
    rw [List.range_succ, List.foldl_append]
    simp only [List.foldl_cons, List.foldl_nil]
    exact chunkLen_writeCell _ _ _ _ ih

theorem readCell_foldWrites_outside (s : Nat) (v : α) (cnt p : Nat)
    (d : List (List (Option α))) (hp : p < s ∨ s + cnt ≤ p) :
    readCell ((List.range cnt).foldl
      (fun d' k => writeCell d' ((s + k) / N) ((s + k) % N) (some v)) d)
      (p / N) (p % N) = readCell d (p / N) (p % N) := by
  induction cnt with
  | zero => rfl
  | succ m ih =>
    rw [List.range_succ, List.foldl_append]
    simp only [List.foldl_cons, List.foldl_nil]
    rw [readCell_writeCell_ne _ _ _ _ _ _ (loc_ne (s + m) p (by omega))]
    exact ih (by omega)

theorem readCell_foldWrites_inside (hN : 0 < N) (s : Nat) (v : α) (cnt p : Nat)
    (d : List (List (Option α))) (hlen : ∀ ch ∈ d, ch.length = N)
    (hb : ∀ k, k < cnt → (s + k) / N < d.length)
    (hp1 : s ≤ p) (hp2 : p < s + cnt) :
    readCell ((List.range cnt).foldl
      (fun d' k => writeCell d' ((s + k) / N) ((s + k) % N) (some v)) d)
      (p / N) (p % N) = some v := by
  induction cnt with
  | zero => omega
  | succ m ih =>
    rw [List.range_succ, List.foldl_append]
    simp only [List.foldl_cons, List.foldl_nil]
    by_cases hpe : p = s + m
    · subst hpe
      have hdl := foldWrites_length (N := N) s v m d
      have hdc := foldWrites_chunkLen (N := N) s v m d hlen
      refine readCell_writeCell_self _ _ _ _ (by rw [hdl]; exact hb m (by omega)) ?_
      rw [hdc _ (getD_mem_of_lt _ _ [] (by rw [hdl]; exact hb m (by omega)))]
      exact Nat.mod_lt _ hN
    · rw [readCell_writeCell_ne _ _ _ _ _ _ (loc_ne (s + m) p (by omega))]
      exact ih (fun k hk => hb k (by omega)) (by omega)

/-- Structural effect of `resize`: the new length is `new_len` and the chunk
count becomes exactly `ceil(new_len / N)`. -/
theorem resize_struct (hN : 0 < N) (cv : ChunkedVec α N) (n : Nat) (v : α)
    (hlen : cv.data.length = ceilDiv cv.len N) :
    (cv.resize n v).len = n ∧ (cv.resize n v).data.length = ceilDiv n N := by
  unfold ChunkedVec.resize
  by_cases h1 : n > cv.len
  · rw [if_pos h1]
    refine ⟨rfl, ?_⟩
    dsimp only
    rw [foldWrites_length]
    have hm : ceilDiv cv.len N ≤ ceilDiv n N :=
      ceilDiv_le_ceilDiv _ _ (by omega)
    by_cases h2 : (n + N - 1) / N > cv.data.length
    · rw [if_pos h2]
      simp only [List.length_append, List.length_replicate]
      have : (n + N - 1) / N = ceilDiv n N := rfl
      omega
    · rw [if_neg h2]
      have : (n + N - 1) / N = ceilDiv n N := rfl
      omega
  · rw [if_neg h1]
    by_cases h2 : n < cv.len
    · rw [if_pos h2]
      refine ⟨rfl, ?_⟩
      dsimp only
      rw [List.length_take]
      by_cases h3 : n = 0
      · subst h3
        rw [if_pos rfl, ceilDiv_zero hN]
        omega
      · rw [if_neg h3]
        have hm : ceilDiv n N ≤ ceilDiv cv.len N :=
          ceilDiv_le_ceilDiv _ _ (by omega)
        have : (n + N - 1) / N = ceilDiv n N := rfl
        omega
    · rw [if_neg h2]
      have : n = cv.len := by omega
      subst this
      exact ⟨rfl, hlen⟩

/-- `resize` preserves the all-chunks-have-`N`-slots invariant. -/
theorem resize_chunkLen (cv : ChunkedVec α N) (n : Nat) (v : α)
    (hch : ∀ c ∈ cv.data, c.length = N) :
    ∀ c ∈ (cv.resize n v).data, c.length = N := by
  unfold ChunkedVec.resize
  by_cases h1 : n > cv.len
  · rw [if_pos h1]
    dsimp only
    apply foldWrites_chunkLen
    by_cases h2 : (n + N - 1) / N > cv.data.length
    · rw [if_pos h2]
      intro c hc
      rcases List.mem_append.1 hc with hc | hc
      · exact hch c hc
      · rw [List.eq_of_mem_replicate hc]
        simp [ChunkedVec.uninitChunk]
    · rw [if_neg h2]
      exact hch
  · rw [if_neg h1]
    by_cases h2 : n < cv.len
    · rw [if_pos h2]
      intro c hc
      exact hch c (List.mem_of_mem_take hc)
    · rw [if_neg h2]
      exact hch

/-! ## Structure of `remove` -/

theorem ChunkedVec.crossStep_length (d : List (List (Option α))) (i : Nat) :
    (ChunkedVec.crossStep N d i).length = d.length := by
  simp [ChunkedVec.crossStep]

theorem ChunkedVec.crossLoop_length (d : List (List (Option α))) (s c : Nat) :
    (ChunkedVec.crossLoop N d s c).length = d.length := by
  unfold ChunkedVec.crossLoop
  induction c with
  | zero => rfl
  | succ m ih =>
    rw [List.range_succ, List.foldl_append]
    simp only [List.foldl_cons, List.foldl_nil]
    rw [ChunkedVec.crossStep_length, ih]

theorem ChunkedVec.removeShifted_length (cv : ChunkedVec α N) (index : Nat) :
    (ChunkedVec.removeShifted cv index).length = cv.data.length := by
  unfold ChunkedVec.removeShifted
  rw [ChunkedVec.crossLoop_length]
  simp

/-- Complete case analysis of `remove` on a container whose chunk count is
the invariant `ceil(len / N)` and for an in-bounds index: when `len` is a
multiple of `N` the uninitialized-marking step panics with `len` untouched
(its chunk index `len / N` equals the chunk count); otherwise `remove`
returns normally with `len` decremented and the chunk list truncated to
`ceil((len - 1) / N)`. -/
theorem remove_cases (hN : 0 < N) (cv : ChunkedVec α N) (i : Nat)
    (hlen : cv.data.length = ceilDiv cv.len N) (hi : i < cv.len) :
    (cv.len % N = 0 →
      cv.remove i = .error ⟨ChunkedVec.removeShifted cv i, cv.len⟩ ∧
        cv.len / N = cv.data.length) ∧
    (cv.len % N ≠ 0 →
      ∃ r st, cv.remove i = .ok (r, st) ∧ st.len = cv.len - 1 ∧
        st.data.length = ceilDiv (cv.len - 1) N) := by
  have hcd := ceilDiv_eq hN cv.len
  have hd2 := ChunkedVec.removeShifted_length cv i
  constructor
  · intro hmod
    rw [if_pos hmod] at hcd
    have hdiv : cv.data.length = cv.len / N := by omega
    have hfull : cv.len = cv.len / N * N := by
      have h1 := Nat.div_add_mod cv.len N
      have h2 : N * (cv.len / N) = cv.len / N * N := Nat.mul_comm _ _
      omega
    have hci : i / N < cv.data.length := by
      rw [hdiv]
      exact div_lt_of_lt_mul hN (by omega)
    constructor
    · unfold ChunkedVec.remove
      rw [if_neg (by omega), if_neg (by omega), if_pos (by omega)]
    · omega
  · intro hmod
    rw [if_neg hmod] at hcd
    have hci : i / N < cv.data.length := by
      have : i / N ≤ cv.len / N := Nat.div_le_div_right (by omega)
      omega
    refine ⟨readCell cv.data (i / N) (i % N),
      ⟨(writeCell (ChunkedVec.removeShifted cv i) (cv.len / N) (cv.len % N) none).take
        (if cv.len - 1 = 0 then 0 else (cv.len - 1 + N - 1) / N), cv.len - 1⟩,
      ?_, rfl, ?_⟩
    · unfold ChunkedVec.remove
      rw [if_neg (by omega), if_neg (by omega), if_neg (by omega)]
    · dsimp only
      rw [List.length_take, length_writeCell, hd2]
      have hreq : (if cv.len - 1 = 0 then 0 else (cv.len - 1 + N - 1) / N)
          = ceilDiv (cv.len - 1) N := by
        by_cases h0 : cv.len - 1 = 0
        · rw [if_pos h0, h0, ceilDiv_zero hN]
        · rw [if_neg h0]
          rfl
      have hmono : ceilDiv (cv.len - 1) N ≤ ceilDiv cv.len N :=
        ceilDiv_le_ceilDiv _ _ (by omega)
      omega

/-! ## The container drop walk -/

theorem dropGo_zero (data : List (List (Option α))) (k : Nat) :
    dropGo N data 0 k = [] := by
  cases data with
  | nil => rfl
  | cons c rest => simp [dropGo]

theorem dropGo_eq (hN : 0 < N) :
    ∀ (data : List (List (Option α))) (remaining k : Nat),
    remaining ≤ data.length * N →
    dropGo N data remaining k =
      (List.range remaining).map (fun i => (k + i / N, i % N)) := by
  intro data
  induction data with
  | nil =>
    intro remaining k h
    simp only [List.length_nil, Nat.zero_mul, Nat.le_zero] at h
    subst h
    rfl
  | cons c rest ih =>
    intro remaining k h
    by_cases h0 : remaining = 0
    · subst h0
      simp [dropGo]
    · simp only [dropGo]
      rw [if_neg (by omega)]
      by_cases hsmall : remaining ≤ N
      · rw [Nat.min_eq_left hsmall, Nat.sub_self, dropGo_zero, List.append_nil]
        apply List.map_congr_left
        intro i hi
        have hiN : i < N := by
          have := List.mem_range.1 hi
          omega
        rw [Nat.div_eq_of_lt hiN, Nat.mod_eq_of_lt hiN, Nat.add_zero]
      · push_neg at hsmall
        rw [Nat.min_eq_right (by omega)]
        have hlc : (c :: rest).length * N = rest.length * N + N := by
          rw [List.length_cons]
          ring
        rw [ih (remaining - N) (k + 1) (by omega)]
        have hrem : remaining = N + (remaining - N) := by omega
        rw [hrem, List.range_add, List.map_append, List.map_map]
        have hsub : N + (remaining - N) - N = remaining - N := by omega
        rw [hsub]
        congr 1
        · apply List.map_congr_left
          intro i hi
          have hiN : i < N := List.mem_range.1 hi
          rw [Nat.div_eq_of_lt hiN, Nat.mod_eq_of_lt hiN, Nat.add_zero]
        · apply List.map_congr_left
          intro i _
          simp only [Function.comp]
          rw [Nat.add_comm N i, Nat.add_div_right _ hN, Nat.add_mod_right]
          simp only [Prod.mk.injEq]
          exact ⟨by omega, trivial⟩

/-! ## The owning iterator -/

theorem iterDropGo_eq (len : Nat) :
    ∀ (index : Nat), IntoIter.iterDropGo N len index =
      (List.range (len - index)).map
        (fun j => ((index + j) / N, (index + j) % N)) := by
  intro index
  generalize hm : len - index = m
  induction m generalizing index with
  | zero =>
    rw [IntoIter.iterDropGo.eq_def, if_neg (by omega)]
    rfl
  | succ m ih =>
    rw [IntoIter.iterDropGo.eq_def, if_pos (by omega)]
    rw [ih (index + 1) (by omega)]
    rw [List.range_succ_eq_map, List.map_cons, List.map_map]
    congr 1
    apply List.map_congr_left
    intro a _
    simp only [Function.comp, Nat.succ_eq_add_one]
    have h : index + 1 + a = index + (a + 1) := by omega
    rw [h]

theorem nextN_spec (xs : List α) :
    ∀ (k : Nat) (it : IntoIter α N),
    it.vec.len = xs.length →
    (∀ p, it.index ≤ p → p < xs.length →
      readCell it.vec.data (p / N) (p % N) = xs[p]?) →
    it.index + k ≤ xs.length →
    (it.nextN k).1 = (List.range k).map (fun j => xs[it.index + j]?) ∧
    (it.nextN k).2.index = it.index + k ∧
    (it.nextN k).2.vec.len = xs.length ∧
    (∀ p, it.index + k ≤ p → p < xs.length →
      readCell (it.nextN k).2.vec.data (p / N) (p % N) = xs[p]?) := by
  intro k
  induction k with
  | zero =>
    intro it h1 h2 h3
    exact ⟨rfl, rfl, h1, fun p hp1 hp2 => h2 p (by omega) hp2⟩
  | succ m ih =>
    intro it h1 h2 h3
    have hidx : it.index < it.vec.len := by omega
    have hnext : it.next =
        (readCell it.vec.data (it.index / N) (it.index % N),
          ⟨⟨writeCell it.vec.data (it.index / N) (it.index % N) none, it.vec.len⟩,
            it.index + 1⟩) := by
      simp only [IntoIter.next]
      rw [if_pos hidx]
    have h2' : ∀ p, it.index + 1 ≤ p → p < xs.length →
        readCell (writeCell it.vec.data (it.index / N) (it.index % N) none)
          (p / N) (p % N) = xs[p]? := by
      intro p hp1 hp2
      rw [readCell_writeCell_ne _ _ _ _ _ _ (loc_ne it.index p (by omega))]
      exact h2 p (by omega) hp2
    obtain ⟨hy, hidx', hlen', hcells'⟩ :=
      ih ⟨⟨writeCell it.vec.data (it.index / N) (it.index % N) none, it.vec.len⟩,
        it.index + 1⟩ h1 h2' (show it.index + 1 + m ≤ xs.length by omega)
    have hun1 : (it.nextN (m + 1)).1 = it.next.1 :: (it.next.2.nextN m).1 := rfl
    have hun2 : (it.nextN (m + 1)).2 = (it.next.2.nextN m).2 := rfl
    refine ⟨?_, ?_, ?_, ?_⟩
    · rw [hun1, hnext]
      dsimp only
      rw [hy, List.range_succ_eq_map, List.map_cons, List.map_map]
      congr 1
      · rw [Nat.add_zero]
        exact h2 it.index (le_refl _) (by omega)
      · apply List.map_congr_left
        intro j _
        simp only [Function.comp, Nat.succ_eq_add_one]
        have h : it.index + (j + 1) = it.index + 1 + j := by omega
        rw [h]
    · rw [hun2, hnext]
      dsimp only
      rw [hidx']
      dsimp only
      omega
    · rw [hun2, hnext]
      exact hlen'
    · intro p hp1 hp2
      rw [hun2, hnext]
      exact hcells' p (by dsimp only; omega) hp2

/-! ## The chunk-count invariant -/

theorem reachable_chunk_count (hN : 0 < N) (cv : ChunkedVec α N)
    (h : Reachable cv) : cv.data.length = ceilDiv cv.len N := by
  induction h with
  | new => simp [ChunkedVec.new, ceilDiv_zero hN]
  | with_capacity c => simp [ChunkedVec.with_capacity, ceilDiv_zero hN]
  | with_chunk_count k => simp [ChunkedVec.with_chunk_count, ceilDiv_zero hN]
  | push cv cv' v _ hok ih =>
    have hcd := ceilDiv_eq hN cv.len
    simp only [ChunkedVec.push] at hok
    by_cases hb : cv.len / N ≥ cv.data.length
    · rw [if_pos hb] at hok
      have hmod : cv.len % N = 0 := by
        by_contra hm0
        rw [if_neg hm0] at hok
        exact Except.noConfusion hok
      rw [if_pos hmod] at hok
      rw [if_pos hmod] at hcd
      obtain rfl := (Except.ok.inj hok).symm
      simp only [List.length_append, List.length_singleton]
      rw [ceilDiv_succ hN]
      omega
    · rw [if_neg hb] at hok
      push_neg at hb
      obtain rfl := (Except.ok.inj hok).symm
      have hmod : cv.len % N ≠ 0 := by
        intro hm0
        rw [if_pos hm0] at hcd
        omega
      rw [if_neg hmod] at hcd
      simp only [length_writeCell]
      rw [ceilDiv_succ hN]
      omega
  | resize cv n v _ ih =>
    obtain ⟨h1, h2⟩ := resize_struct hN cv n v ih
    rw [h1, h2]
  | remove cv st i r _ hok ih =>
    have hi : i < cv.len := by
      by_contra hi
      unfold ChunkedVec.remove at hok
      rw [if_pos (by omega)] at hok
      exact Except.noConfusion hok
    by_cases hmod : cv.len % N = 0
    · obtain ⟨heq, _⟩ := (remove_cases hN cv i ih hi).1 hmod
      rw [heq] at hok
      exact Except.noConfusion hok
    · obtain ⟨r', st', heq, hlen', hdl⟩ := (remove_cases hN cv i ih hi).2 hmod
      rw [heq] at hok
      obtain ⟨-, rfl⟩ := Prod.mk.inj (Except.ok.inj hok)
      rw [hdl, hlen']

/-!
## Claim theorems
-/

/-- **C1** (failing input for the claim "for every ChunkedVec of length
`len ≥ 1` and every index `i < len`, `remove(i)` returns `x_i`, the length
becomes `len - 1` and later elements shift down by one").  The container
holding `[10, 20]` with chunk size 2 is well formed and models `[10, 20]`,
and `0 < len`, yet `remove 0` does not return `10` with the length
decremented: it panics (out-of-bounds chunk-list access in the
uninitialized-marking step) leaving `len = 2`, because `len` is a multiple
of `N` so `last_chunk_idx = len / N` equals the chunk count. -/
theorem remove_full_last_chunk_bug :
    WF (⟨[[some 10, some 20]], 2⟩ : ChunkedVec Nat 2) ∧
    Models (⟨[[some 10, some 20]], 2⟩ : ChunkedVec Nat 2) [10, 20] ∧
    (⟨[[some 10, some 20]], 2⟩ : ChunkedVec Nat 2).remove 0 =
      .error ⟨[[some 20, some 20]], 2⟩ := by
  decide

/-- **C2**: on any container respecting the chunk-count invariant, with
`i < len`: if `len` is a (nonzero) multiple of `N`, every `remove i` panics
with the length still undecremented, and the panicking uninitialized-marking
step addresses chunk index `len / N`, which equals the number of allocated
chunks; if `len` is not a multiple of `N`, `remove i` completes normally
with the length decremented by one. -/
theorem remove_full_chunk_panic_spec (hN : 0 < N) (cv : ChunkedVec α N)
    (hlen : cv.data.length = ceilDiv cv.len N) :
    (N ∣ cv.len → cv.len ≠ 0 → ∀ i, i < cv.len →
      ∃ st, cv.remove i = .error st ∧ st.len = cv.len ∧
        cv.len / N = cv.data.length) ∧
    (¬ N ∣ cv.len → ∀ i, i < cv.len →
      ∃ r st, cv.remove i = .ok (r, st) ∧ st.len = cv.len - 1) := by
  constructor
  · intro hdvd _ i hi
    have hmod : cv.len % N = 0 := Nat.dvd_iff_mod_eq_zero.1 hdvd
    obtain ⟨heq, hcount⟩ := (remove_cases hN cv i hlen hi).1 hmod
    exact ⟨_, heq, rfl, hcount⟩
  · intro hdvd i hi
    have hmod : cv.len % N ≠ 0 := fun h => hdvd (Nat.dvd_iff_mod_eq_zero.2 h)
    obtain ⟨r, st, heq, hlen', -⟩ := (remove_cases hN cv i hlen hi).2 hmod
    exact ⟨r, st, heq, hlen'⟩

/-- Witness for **C2**: with `N = 2`, a 2-element (full-chunk) container
panics on `remove 1` with `len` untouched, while a 3-element container
removes index 1 normally. -/
theorem remove_full_chunk_panic_spec_witness :
    (∃ st, (⟨[[some 1, some 2]], 2⟩ : ChunkedVec Nat 2).remove 1 =
        .error st ∧ st.len = 2 ∧ 2 / 2 = 1) ∧
    (∃ r st, (⟨[[some 1, some 2], [some 3, none]], 3⟩ :
        ChunkedVec Nat 2).remove 1 = .ok (r, st) ∧ st.len = 2) := by
  constructor
  · exact (remove_full_chunk_panic_spec (by decide)
      (⟨[[some 1, some 2]], 2⟩ : ChunkedVec Nat 2) (by decide)).1
      (by decide) (by decide) 1 (by decide)
  · exact (remove_full_chunk_panic_spec (by decide)
      (⟨[[some 1, some 2], [some 3, none]], 3⟩ : ChunkedVec Nat 2)
      (by decide)).2 (by decide) 1 (by decide)

/-- **C3**: with chunk size 2, pushing `10, 20, 30, 40, 50` into an empty
container and then calling `remove 1` returns `20`, and the result has
length 4 and models `[10, 30, 40, 50]` in order. -/
theorem remove_concrete_scenario :
    ChunkedVec.pushAll (ChunkedVec.new : ChunkedVec Nat 2)
      [10, 20, 30, 40, 50] =
      .ok ⟨[[some 10, some 20], [some 30, some 40], [some 50, none]], 5⟩ ∧
    (⟨[[some 10, some 20], [some 30, some 40], [some 50, none]], 5⟩ :
        ChunkedVec Nat 2).remove 1 =
      .ok (some 20, ⟨[[some 10, some 30], [some 40, some 50]], 4⟩) ∧
    (⟨[[some 10, some 30], [some 40, some 50]], 4⟩ : ChunkedVec Nat 2).len
      = 4 ∧
    Models (⟨[[some 10, some 30], [some 40, some 50]], 4⟩ : ChunkedVec Nat 2)
      [10, 30, 40, 50] := by
  decide

/-- **C4** (counterexample): the claim "construct-with-capacity(c) allocates
exactly `ceil(c / N)` chunks, i.e. `allocated_capacity() = ceil(c / N) * N`"
fails at `c = 10`, `N = 4`: `with_capacity` only reserves backing-`Vec`
capacity (`ceil(10 / 4) = 3` chunk slots) and allocates no chunk, so
`allocated_capacity()` is `0`, not `ceil(10 / 4) * 4 = 12`. -/
theorem with_capacity_allocates_no_chunks_cex :
    (ChunkedVec.with_capacity 10 : ChunkedVec Nat 4).allocated_capacity = 0 ∧
    ChunkedVec.with_capacity_reservedChunks 10 4 = 3 ∧
    (ChunkedVec.with_capacity 10 : ChunkedVec Nat 4).allocated_capacity ≠
      ceilDiv 10 4 * 4 := by
  decide

/-- **C4** (amended): for every capacity `c`, construct-with-capacity(`c`)
produces a container with `len = 0` in which no element has been written and
**zero** chunks allocated (`allocated_capacity() = 0`); the construction
only reserves backing-vector capacity for `ceil(c / N)` chunk slots, and
changes neither the chunk count nor `len`. -/
theorem with_capacity_spec (c : Nat) :
    (ChunkedVec.with_capacity c : ChunkedVec α N).len = 0 ∧
    (ChunkedVec.with_capacity c : ChunkedVec α N).data = [] ∧
    (ChunkedVec.with_capacity c : ChunkedVec α N).allocated_capacity = 0 ∧
    ChunkedVec.with_capacity_reservedChunks c N = ceilDiv c N := by
  refine ⟨rfl, rfl, ?_, rfl⟩
  simp [ChunkedVec.with_capacity, ChunkedVec.allocated_capacity]

/-- **C5**: `resize(new_len, v)` always sets `len` to `new_len`; when
growing it leaves the elements of `[0, old_len)` unchanged and makes every
index of `[old_len, new_len)` hold (a clone of) `v`, destructing nothing;
when shrinking it leaves the elements of `[0, new_len)` unchanged and
performs exactly `old_len - new_len` element destructions. -/
theorem resize_spec_claim (hN : 0 < N) (cv : ChunkedVec α N) (xs : List α)
    (new_len : Nat) (v : α) (hwf : WF cv) (hm : Models cv xs) :
    (cv.resize new_len v).len = new_len ∧
    (new_len > cv.len →
      (∀ i, i < cv.len → (cv.resize new_len v).get i = xs[i]?) ∧
      (∀ i, cv.len ≤ i → i < new_len → (cv.resize new_len v).get i = some v) ∧
      cv.resizeDrops new_len = []) ∧
    (new_len < cv.len →
      (∀ i, i < new_len → (cv.resize new_len v).get i = xs[i]?) ∧
      (cv.resizeDrops new_len).length = cv.len - new_len) := by
  obtain ⟨hlen, hch⟩ := hwf
  obtain ⟨hml, hmc⟩ := hm
  refine ⟨(resize_struct hN cv new_len v hlen).1, ?_, ?_⟩
  · intro hgt
    set data1 := (if (new_len + N - 1) / N > cv.data.length then
        cv.data ++ List.replicate ((new_len + N - 1) / N - cv.data.length)
          (ChunkedVec.uninitChunk α N)
      else cv.data) with hd1
    have hres : cv.resize new_len v =
        ⟨(List.range (new_len - cv.len)).foldl
          (fun d k => writeCell d ((cv.len + k) / N) ((cv.len + k) % N)
            (some v)) data1, new_len⟩ := by
      rw [hd1]
      simp only [ChunkedVec.resize]
      rw [if_pos hgt]
    have hreq : (new_len + N - 1) / N = ceilDiv new_len N := rfl
    have hd1len : ceilDiv new_len N ≤ data1.length := by
      rw [hd1]
      by_cases h2 : (new_len + N - 1) / N > cv.data.length
      · rw [if_pos h2]
        simp only [List.length_append, List.length_replicate]
        omega
      · rw [if_neg h2]
        omega
    have hd1ch : ∀ c ∈ data1, c.length = N := by
      rw [hd1]
      by_cases h2 : (new_len + N - 1) / N > cv.data.length
      · rw [if_pos h2]
        intro c hc
        rcases List.mem_append.1 hc with hc | hc
        · exact hch c hc
        · rw [List.eq_of_mem_replicate hc]
          simp [ChunkedVec.uninitChunk]
      · rw [if_neg h2]
        exact hch
    have hd1read : ∀ p, p < cv.len →
        readCell data1 (p / N) (p % N) = readCell cv.data (p / N) (p % N) := by
      intro p hp
      rw [hd1]
      by_cases h2 : (new_len + N - 1) / N > cv.data.length
      · rw [if_pos h2]
        unfold readCell
        rw [getD_append_left]
        rw [hlen]
        exact div_lt_of_lt_mul hN
          (lt_of_lt_of_le hp (le_ceilDiv_mul hN cv.len))
      · rw [if_neg h2]
    refine ⟨?_, ?_, ?_⟩
    · intro i hi
      rw [hres]
      unfold ChunkedVec.get
      dsimp only
      rw [if_neg (by omega)]
      rw [readCell_foldWrites_outside _ _ _ _ _ (Or.inl hi), hd1read i hi]
      exact hmc i hi
    · intro i hi1 hi2
      rw [hres]
      unfold ChunkedVec.get
      dsimp only
      rw [if_neg (by omega)]
      refine readCell_foldWrites_inside hN _ _ _ _ _ hd1ch ?_ hi1 (by omega)
      intro k hk
      have hkb : cv.len + k < ceilDiv new_len N * N :=
        lt_of_lt_of_le (by omega) (le_ceilDiv_mul hN new_len)
      exact lt_of_lt_of_le (div_lt_of_lt_mul hN hkb) hd1len
    · unfold ChunkedVec.resizeDrops
      rw [if_neg (by omega)]
  · intro hlt
    have hres : cv.resize new_len v =
        ⟨cv.data.take (if new_len = 0 then 0 else (new_len + N - 1) / N),
          new_len⟩ := by
      simp only [ChunkedVec.resize]
      rw [if_neg (by omega), if_pos hlt]
    refine ⟨?_, ?_⟩
    · intro i hi
      rw [hres]
      unfold ChunkedVec.get
      dsimp only
      rw [if_neg (by omega)]
      unfold readCell
      rw [getD_take]
      · exact hmc i (by omega)
      · rw [if_neg (by omega)]
        exact div_lt_of_lt_mul hN
          (lt_of_lt_of_le hi (le_ceilDiv_mul hN new_len))
    · unfold ChunkedVec.resizeDrops
      rw [if_pos hlt]
      simp

/-- Witness for **C5**: a 3-element container with chunk size 2 grown to
length 6 with fill 9 keeps its elements, fills with 9, and counts no
destruction; the same container shrunk to 1 keeps element 0 and destructs
exactly 2 elements. -/
theorem resize_spec_claim_witness :
    (((⟨[[some 1, some 2], [some 3, none]], 3⟩ : ChunkedVec Nat 2).resize
      6 9).len = 6 ∧ True) ∧
    ((⟨[[some 1, some 2], [some 3, none]], 3⟩ : ChunkedVec Nat 2).resize
      6 9).get 4 = some 9 ∧
    ((⟨[[some 1, some 2], [some 3, none]], 3⟩ : ChunkedVec Nat 2).resize
      1 9).get 0 = [1, 2, 3][0]? ∧
    ((⟨[[some 1, some 2], [some 3, none]], 3⟩ :
      ChunkedVec Nat 2).resizeDrops 1).length = 3 - 1 := by
  have h6 := resize_spec_claim (by decide)
    (⟨[[some 1, some 2], [some 3, none]], 3⟩ : ChunkedVec Nat 2)
    [1, 2, 3] 6 9 (by decide) (by decide)
  have h1 := resize_spec_claim (by decide)
    (⟨[[some 1, some 2], [some 3, none]], 3⟩ : ChunkedVec Nat 2)
    [1, 2, 3] 1 9 (by decide) (by decide)
  refine ⟨⟨h6.1, trivial⟩, ?_, ?_, ?_⟩
  · exact (h6.2.1 (by decide)).2.1 4 (by decide) (by decide)
  · exact (h1.2.2 (by decide)).1 0 (by decide)
  · exact (h1.2.2 (by decide)).2

/-- **C6**: pushing any sequence of `n` values into an empty container
yields `len() = n`, `get i` returns the `i`-th pushed value for every
`i < n` and `get n` returns nothing; moreover each push writes at
`(len / N, len % N)`, and whenever that chunk index is beyond the chunk
list the offset is necessarily 0 and exactly one new chunk is allocated
with the value in its slot 0. -/
theorem push_sequence_claim (hN : 0 < N) (xs : List α) :
    (∃ cv : ChunkedVec α N, ChunkedVec.pushAll ChunkedVec.new xs = .ok cv ∧
      cv.len = xs.length ∧
      (∀ i, i < xs.length → cv.get i = xs[i]?) ∧
      cv.get xs.length = none) ∧
    (∀ (st : ChunkedVec α N) (v : α), WF st → st.data.length ≤ st.len / N →
      st.len % N = 0 ∧
      st.push v =
        .ok ⟨st.data ++ [ChunkedVec.create_new_chunk N v], st.len + 1⟩) := by
  constructor
  · have hwf0 : WF (ChunkedVec.new : ChunkedVec α N) := by
      constructor
      · simp [ChunkedVec.new, ceilDiv_zero hN]
      · intro c hc
        simp [ChunkedVec.new] at hc
    have hm0 : Models (ChunkedVec.new : ChunkedVec α N) [] := by
      constructor
      · rfl
      · intro i hi
        simp [ChunkedVec.new] at hi
    obtain ⟨cv, hall, hwf, hmm⟩ := pushAll_ok hN xs ChunkedVec.new [] hwf0 hm0
    rw [List.nil_append] at hmm
    obtain ⟨hml, hmc⟩ := hmm
    refine ⟨cv, hall, hml, ?_, ?_⟩
    · intro i hi
      unfold ChunkedVec.get
      rw [if_neg (by omega)]
      exact hmc i (by omega)
    · unfold ChunkedVec.get
      rw [if_pos (by omega)]
  · intro st v hwf hb
    obtain ⟨hlen, -⟩ := hwf
    have hcd := ceilDiv_eq hN st.len
    have hmod : st.len % N = 0 := by
      by_contra hm0
      rw [if_neg hm0] at hcd
      omega
    refine ⟨hmod, ?_⟩
    simp only [ChunkedVec.push]
    rw [if_pos (by omega), if_pos hmod]

/-- Witness for **C6**: pushing `7, 8, 9, 10` with chunk size 3. -/
theorem push_sequence_claim_witness :
    ∃ cv : ChunkedVec Nat 3,
      ChunkedVec.pushAll ChunkedVec.new [7, 8, 9, 10] = .ok cv ∧
      cv.len = 4 ∧
      (∀ i, i < 4 → cv.get i = [7, 8, 9, 10][i]?) ∧
      cv.get 4 = none :=
  (push_sequence_claim (by decide) [7, 8, 9, 10]).1

/-- **C7**: dropping a container directly destructs exactly the slots of
logical indices `0 .. len-1`, in chunk order starting at offset 0 within
each chunk — each live element exactly once (the destruct list is the
duplicate-free enumeration of the live locations, so no slot at a logical
index `≥ len` is touched) — and destructs nothing at all when the element
type needs no drop. -/
theorem drop_destructs_claim (hN : 0 < N) (cv : ChunkedVec α N)
    (h : cv.len ≤ cv.data.length * N) :
    drop_destructs cv true =
      (List.range cv.len).map (fun i => (i / N, i % N)) ∧
    (drop_destructs cv true).Nodup ∧
    drop_destructs cv false = [] := by
  have he : drop_destructs cv true =
      (List.range cv.len).map (fun i => (i / N, i % N)) := by
    unfold drop_destructs
    rw [if_pos rfl, dropGo_eq hN cv.data cv.len 0 h]
    apply List.map_congr_left
    intro i _
    rw [Nat.zero_add]
  refine ⟨he, ?_, rfl⟩
  rw [he]
  refine List.Nodup.map ?_ (List.nodup_range _)
  intro a b hab
  simp only [Prod.mk.injEq] at hab
  exact loc_eq_of hab.1 hab.2

/-- Witness for **C7**: a 5-element container with chunk size 3 destructs
slots `(0,0) (0,1) (0,2) (1,0) (1,1)` exactly. -/
theorem drop_destructs_claim_witness :
    drop_destructs (⟨[[some 1, some 2, some 3], [some 4, some 5, none]], 5⟩ :
      ChunkedVec Nat 3) true = (List.range 5).map (fun i => (i / 3, i % 3)) :=
  (drop_destructs_claim (by decide) _ (by decide)).1

/-- **C8**: if the owning iterator over a container of length `len` is
discarded after yielding `k < len` elements, it has yielded exactly the
first `k` elements; at discard time it destructs each of the `len - k`
not-yet-yielded slots exactly once and resets the container's length to 0,
so the container's own disposal destructs nothing further; yields plus
drop-destructions account for exactly `len` elements. -/
theorem into_iter_partial_drop_claim (_hN : 0 < N) (cv : ChunkedVec α N)
    (xs : List α) (hm : Models cv xs) (k : Nat) (hk : k < cv.len) :
    ((IntoIter.into_iter cv).nextN k).1 =
      (List.range k).map (fun j => xs[j]?) ∧
    IntoIter.iter_drop_destructs ((IntoIter.into_iter cv).nextN k).2 =
      (List.range (cv.len - k)).map
        (fun j => ((k + j) / N, (k + j) % N)) ∧
    (IntoIter.iter_drop_destructs
      ((IntoIter.into_iter cv).nextN k).2).length = cv.len - k ∧
    (IntoIter.iter_finalize ((IntoIter.into_iter cv).nextN k).2).len = 0 ∧
    (∀ b, drop_destructs
      (IntoIter.iter_finalize ((IntoIter.into_iter cv).nextN k).2) b = []) ∧
    ((IntoIter.into_iter cv).nextN k).1.length +
      (IntoIter.iter_drop_destructs
        ((IntoIter.into_iter cv).nextN k).2).length = cv.len := by
  obtain ⟨hml, hmc⟩ := hm
  obtain ⟨hy, hidx, hlen, -⟩ := nextN_spec xs k (IntoIter.into_iter cv)
    hml (fun p _ hp2 => hmc p (by omega))
    (show 0 + k ≤ xs.length by omega)
  have hidx0 : ((IntoIter.into_iter cv).nextN k).2.index = k := by
    dsimp only [IntoIter.into_iter] at hidx ⊢
    omega
  have hlen0 : ((IntoIter.into_iter cv).nextN k).2.vec.len = cv.len := by
    have h := hlen
    omega
  have h2 : IntoIter.iter_drop_destructs ((IntoIter.into_iter cv).nextN k).2 =
      (List.range (cv.len - k)).map
        (fun j => ((k + j) / N, (k + j) % N)) := by
    unfold IntoIter.iter_drop_destructs
    rw [iterDropGo_eq, hlen0, hidx0]
  refine ⟨?_, h2, ?_, rfl, ?_, ?_⟩
  · rw [hy]
    apply List.map_congr_left
    intro j _
    dsimp only [IntoIter.into_iter]
    rw [Nat.zero_add]
  · rw [h2]
    simp
  · intro b
    cases b with
    | false => rfl
    | true =>
      unfold drop_destructs
      rw [if_pos rfl]
      dsimp only [IntoIter.iter_finalize]
      exact dropGo_zero _ _
  · rw [hy, h2]
    simp only [List.length_map, List.length_range]
    omega

/-- Witness for **C8**: chunk size 3, five elements, two yielded. -/
theorem into_iter_partial_drop_claim_witness :
    IntoIter.iter_drop_destructs
      ((IntoIter.into_iter (⟨[[some 1, some 2, some 3], [some 4, some 5, none]],
        5⟩ : ChunkedVec Nat 3)).nextN 2).2 =
      (List.range 3).map (fun j => ((2 + j) / 3, (2 + j) % 3)) :=
  (into_iter_partial_drop_claim (by decide)
    (⟨[[some 1, some 2, some 3], [some 4, some 5, none]], 5⟩ :
      ChunkedVec Nat 3) [1, 2, 3, 4, 5] (by decide) 2 (by decide)).2.1

/-- **C9**: `get` and `get_mut` return nothing exactly when `index ≥ len`
and otherwise the element at `(index / N, index % N)`; the indexing
operators (read and write access) panic exactly when `index ≥ len` and
otherwise yield the same element — absence for out-of-range `get`/`get_mut`,
a fatal error for out-of-range operator indexing. -/
theorem access_claim (cv : ChunkedVec α N) (xs : List α) (hm : Models cv xs)
    (i : Nat) :
    (cv.get i = none ↔ cv.len ≤ i) ∧
    (cv.get_mut i = none ↔ cv.len ≤ i) ∧
    (cv.index_read i = .error () ↔ cv.len ≤ i) ∧
    (cv.index_write i = .error () ↔ cv.len ≤ i) ∧
    (i < cv.len → cv.get i = xs[i]? ∧ cv.get_mut i = xs[i]? ∧
      cv.index_read i = .ok xs[i]? ∧ cv.index_write i = .ok xs[i]? ∧
      ∃ y, xs[i]? = some y) := by
  obtain ⟨hml, hmc⟩ := hm
  by_cases hi : cv.len ≤ i
  · have hg : cv.get i = none := by
      unfold ChunkedVec.get
      rw [if_pos hi]
    have hgm : cv.get_mut i = none := by
      unfold ChunkedVec.get_mut
      rw [if_pos hi]
    have hir : cv.index_read i = .error () := by
      unfold ChunkedVec.index_read
      rw [if_pos hi]
    have hiw : cv.index_write i = .error () := by
      unfold ChunkedVec.index_write
      rw [if_pos hi]
    exact ⟨iff_of_true hg hi, iff_of_true hgm hi, iff_of_true hir hi,
      iff_of_true hiw hi, fun h => absurd h (by omega)⟩
  · push_neg at hi
    obtain ⟨y, hy⟩ : ∃ y, xs[i]? = some y :=
      ⟨xs.get ⟨i, by omega⟩, List.getElem?_eq_getElem (by omega)⟩
    have hg : cv.get i = xs[i]? := by
      unfold ChunkedVec.get
      rw [if_neg (by omega)]
      exact hmc i hi
    have hgm : cv.get_mut i = xs[i]? := by
      unfold ChunkedVec.get_mut
      rw [if_neg (by omega)]
      exact hmc i hi
    have hir : cv.index_read i = .ok xs[i]? := by
      unfold ChunkedVec.index_read
      rw [if_neg (by omega)]
      rw [hmc i hi]
    have hiw : cv.index_write i = .ok xs[i]? := by
      unfold ChunkedVec.index_write
      rw [if_neg (by omega)]
      rw [hmc i hi]
    refine ⟨iff_of_false (by rw [hg, hy]; simp) (by omega),
      iff_of_false (by rw [hgm, hy]; simp) (by omega),
      iff_of_false (by rw [hir]; simp) (by omega),
      iff_of_false (by rw [hiw]; simp) (by omega),
      fun _ => ⟨hg, hgm, hir, hiw, y, hy⟩⟩

/-- Witness for **C9**: a 3-element container with chunk size 2, probed in
range at index 2. -/
theorem access_claim_witness :
    ((⟨[[some 1, some 2], [some 3, none]], 3⟩ : ChunkedVec Nat 2).get 2 = none
      ↔ 3 ≤ 2) ∧
    ((⟨[[some 1, some 2], [some 3, none]], 3⟩ : ChunkedVec Nat 2).get_mut 2 =
      none ↔ 3 ≤ 2) ∧
    ((⟨[[some 1, some 2], [some 3, none]], 3⟩ :
      ChunkedVec Nat 2).index_read 2 = .error () ↔ 3 ≤ 2) ∧
    ((⟨[[some 1, some 2], [some 3, none]], 3⟩ :
      ChunkedVec Nat 2).index_write 2 = .error () ↔ 3 ≤ 2) ∧
    (2 < 3 →
      (⟨[[some 1, some 2], [some 3, none]], 3⟩ : ChunkedVec Nat 2).get 2 =
        [1, 2, 3][2]? ∧
      (⟨[[some 1, some 2], [some 3, none]], 3⟩ : ChunkedVec Nat 2).get_mut 2 =
        [1, 2, 3][2]? ∧
      (⟨[[some 1, some 2], [some 3, none]], 3⟩ :
        ChunkedVec Nat 2).index_read 2 = .ok [1, 2, 3][2]? ∧
      (⟨[[some 1, some 2], [some 3, none]], 3⟩ :
        ChunkedVec Nat 2).index_write 2 = .ok [1, 2, 3][2]? ∧
      ∃ y, [1, 2, 3][2]? = some y) :=
  access_claim (⟨[[some 1, some 2], [some 3, none]], 3⟩ : ChunkedVec Nat 2)
    [1, 2, 3] (by decide) 2

/-- **C10**: every container reachable from the public constructors by
successful `push`/`resize`/`remove` operations holds exactly
`ceil(len / N)` allocated chunks (capacity reservation materializes none),
so `allocated_capacity() = ceil(len / N) * N ≥ len` at all times. -/
theorem reachable_chunk_invariant_claim (hN : 0 < N) (cv : ChunkedVec α N)
    (h : Reachable cv) :
    cv.data.length = ceilDiv cv.len N ∧
    cv.allocated_capacity = ceilDiv cv.len N * N ∧
    cv.len ≤ cv.allocated_capacity := by
  have h1 := reachable_chunk_count hN cv h
  refine ⟨h1, ?_, ?_⟩
  · unfold ChunkedVec.allocated_capacity
    rw [h1]
  · unfold ChunkedVec.allocated_capacity
    rw [h1]
    exact le_ceilDiv_mul hN cv.len

/-- Witness for **C10**: the container obtained by one push from `new`
with chunk size 2 satisfies the invariant. -/
theorem reachable_chunk_invariant_claim_witness :
    (⟨[[some 5, none]], 1⟩ : ChunkedVec Nat 2).data.length = ceilDiv 1 2 ∧
    (⟨[[some 5, none]], 1⟩ : ChunkedVec Nat 2).allocated_capacity =
      ceilDiv 1 2 * 2 ∧
    (⟨[[some 5, none]], 1⟩ : ChunkedVec Nat 2).len ≤
      (⟨[[some 5, none]], 1⟩ : ChunkedVec Nat 2).allocated_capacity :=
  reachable_chunk_invariant_claim (by decide) _
    (Reachable.push ChunkedVec.new _ 5 Reachable.new (by decide))

end ChunkedVecSpec
